import Mathlib

/-!
Verification of the diff-processing core of the GitSmart extension:
the Patch Filter (`createFilteredPatch`) and the Diff Structurer
(`parseDiff`), embedded from the source line by line.

Strings are modelled with Lean `String`; the JavaScript regular
expressions used by the source are embedded as explicit leftmost-match
parsers over `List Char` (`matchHeaderAt`/`searchHeader` for the filter
pattern requiring both counts, `matchStructAt`/`searchStruct` for the
structurer pattern with optional counts).  The configurable exclusion
rules are modelled as an abstract list of Boolean predicates on the
trimmed added-line content, mirroring `filterRegexes.some(r => r.test(codeLine))`.
-/

namespace GitSmart

/-- Boolean prefix test on character lists (the model of
`String.prototype.startsWith`). -/
def hasPrefixB : List Char → List Char → Bool
  | [], _ => true
  | _ :: _, [] => false
  | p :: ps, c :: cs => p == c && hasPrefixB ps cs

/-- `s.startsWith(pre)` of the source. -/
def strStartsWith (s pre : String) : Bool :=
  hasPrefixB pre.toList s.toList

/-- Substring occurrence on character lists (the model of
`String.prototype.includes`). -/
def containsB (pat : List Char) : List Char → Bool
  | [] => hasPrefixB pat []
  | c :: cs => hasPrefixB pat (c :: cs) || containsB pat cs

/-- `s.includes(pat)` of the source. -/
def strContains (s pat : String) : Bool :=
  containsB pat.toList s.toList

/-- Whitespace for trimming, as in `Char.isWhitespace`. -/
def isWS (c : Char) : Bool :=
  c == ' ' || c == '\t' || c == '\r' || c == '\n'

/-- `s.trim()` of the source: strip leading and trailing whitespace. -/
def strTrim (s : String) : String :=
  String.mk (((s.toList.dropWhile isWS).reverse.dropWhile isWS).reverse)

/-- `s.substring(1)` of the source: drop the one-character line prefix. -/
def strTail (s : String) : String :=
  String.mk (s.toList.drop 1)

/-- Helper for `splitLines`: accumulate the current line (reversed) and
cut at each newline character. -/
def splitLinesAux : List Char → List Char → List String
  | acc, [] => [String.mk acc.reverse]
  | acc, c :: cs =>
    if c == '\n' then String.mk acc.reverse :: splitLinesAux [] cs
    else splitLinesAux (c :: acc) cs

/-- `diff.split("\n")` of the source (keeps empty fields, as in
JavaScript). -/
def splitLines (s : String) : List String :=
  splitLinesAux [] s.toList

/-- Numeric value of a run of decimal digits (the model of `parseInt`
applied to a `\d+` capture). -/
def digitsVal (ds : List Char) : Nat :=
  ds.foldl (fun n c => 10 * n + (c.toNat - 48)) 0

/-- Split off the maximal leading run of decimal digits. -/
def splitDigits : List Char → List Char × List Char
  | [] => ([], [])
  | c :: cs =>
    if c.isDigit then
      let p := splitDigits cs
      (c :: p.1, p.2)
    else ([], c :: cs)

/-- Greedy `\d+`: at least one digit, maximal run. -/
def digits1 (cs : List Char) : Option (List Char × List Char) :=
  match splitDigits cs with
  | ([], _) => none
  | (ds, rest) => some (ds, rest)

/-- Consume an exact literal, returning the remainder. -/
def dropLit : List Char → List Char → Option (List Char)
  | [], cs => some cs
  | _ :: _, [] => none
  | p :: ps, c :: cs => if p == c then dropLit ps cs else none

/-- Match of the Patch Filter's header pattern
`@@ -(\d+),(\d+) \+(\d+),(\d+) @@` at the current position.  The second
capture (`oldCount`) is kept as its raw digit string because the source
splices `headerMatch[2]` back verbatim; the other three are parsed with
`parseInt`. -/
def matchHeaderAt (cs : List Char) : Option (Nat × List Char × Nat × Nat) :=
  match dropLit "@@ -".toList cs with
  | none => none
  | some cs1 =>
    match digits1 cs1 with
    | none => none
    | some (da, cs2) =>
      match dropLit [','] cs2 with
      | none => none
      | some cs3 =>
        match digits1 cs3 with
        | none => none
        | some (db, cs4) =>
          match dropLit " +".toList cs4 with
          | none => none
          | some cs5 =>
            match digits1 cs5 with
            | none => none
            | some (dc, cs6) =>
              match dropLit [','] cs6 with
              | none => none
              | some cs7 =>
                match digits1 cs7 with
                | none => none
                | some (dd, cs8) =>
                  match dropLit " @@".toList cs8 with
                  | none => none
                  | some _ => some (digitsVal da, db, digitsVal dc, digitsVal dd)

/-- Leftmost occurrence of the filter's header pattern anywhere in the
line (JavaScript `String.prototype.match` semantics). -/
def searchHeader : List Char → Option (Nat × List Char × Nat × Nat)
  | [] => matchHeaderAt []
  | c :: cs =>
    match matchHeaderAt (c :: cs) with
    | some r => some r
    | none => searchHeader cs

/-- Final literal ` @@` of the structurer's pattern. -/
def structEnd (n : Nat) (cs : List Char) : Option Nat :=
  match dropLit " @@".toList cs with
  | none => none
  | some _ => some n

/-- Greedy optional `(?:,\d+)?` before the final ` @@`, with
backtracking: first try consuming `,\d+`, fall back to not consuming. -/
def structCloseOpt (n : Nat) (cs : List Char) : Option Nat :=
  match dropLit [','] cs with
  | none => structEnd n cs
  | some cs1 =>
    match digits1 cs1 with
    | none => structEnd n cs
    | some (_, cs2) =>
      match structEnd n cs2 with
      | some r => some r
      | none => structEnd n cs

/-- The ` \+(\d+)(?:,\d+)? @@` tail of the structurer's pattern; the
captured group is `newStart`. -/
def structTail (cs : List Char) : Option Nat :=
  match dropLit " +".toList cs with
  | none => none
  | some cs1 =>
    match digits1 cs1 with
    | none => none
    | some (dc, cs2) => structCloseOpt (digitsVal dc) cs2

/-- Greedy optional `(?:,\d+)?` after the old-side digits, with
backtracking into the tail. -/
def structOldOpt (cs : List Char) : Option Nat :=
  match dropLit [','] cs with
  | none => structTail cs
  | some cs1 =>
    match digits1 cs1 with
    | none => structTail cs
    | some (_, cs2) =>
      match structTail cs2 with
      | some r => some r
      | none => structTail cs

/-- Match of the Diff Structurer's header pattern
`@@ -\d+(?:,\d+)? \+(\d+)(?:,\d+)? @@` at the current position,
returning the single capture `newStart`. -/
def matchStructAt (cs : List Char) : Option Nat :=
  match dropLit "@@ -".toList cs with
  | none => none
  | some cs1 =>
    match digits1 cs1 with
    | none => none
    | some (_, cs2) => structOldOpt cs2

/-- Leftmost occurrence of the structurer's header pattern anywhere in
the line. -/
def searchStruct : List Char → Option Nat
  | [] => matchStructAt []
  | c :: cs =>
    match matchStructAt (c :: cs) with
    | some r => some r
    | none => searchStruct cs

/-- The four file-header kinds the filter copies verbatim:
`line.startsWith("diff ") || line.startsWith("index ") ||
line.startsWith("--- ") || line.startsWith("+++ ")`. -/
def isFileHeaderLine (l : String) : Bool :=
  strStartsWith l "diff " || strStartsWith l "index " ||
    strStartsWith l "--- " || strStartsWith l "+++ "

/-- `filterRegexes.some(regex => regex.test(codeLine))`; exclusion rules
are abstracted as Boolean predicates. -/
def matchesAny (rules : List (String → Bool)) (s : String) : Bool :=
  rules.any fun r => r s

/-- Canonical rebuild of the filter's hunk header:
the template literal of the source. -/
def mkFilterHeader (a : Nat) (bs : List Char) (c : Nat) (d : Int) : String :=
  "@@ -" ++ toString a ++ "," ++ String.mk bs ++ " +" ++ toString c ++ "," ++
    toString d ++ " @@"

/-- Rewriting of an accumulated hunk's header on finalization: if the
filter pattern matches the first line, substitute
`originalNewCount - skippedLines` (JavaScript number subtraction,
modelled on `Int`); otherwise the hunk is flushed unchanged. -/
def finalizeHunk (hunk : List String) (skipped : Nat) : List String :=
  match hunk with
  | [] => []
  | h :: rest =>
    match searchHeader h.toList with
    | some (a, bs, c, d) => mkFilterHeader a bs c ((d : Int) - (skipped : Int)) :: rest
    | none => h :: rest

/-- The mutable loop state of `createFilteredPatch`:
`filteredLines`, `currentHunk`, `skippedLines`. -/
structure FilterState where
  filtered : List String
  hunk : List String
  skipped : Nat
  deriving DecidableEq

/-- One iteration of the `for (const line of lines)` loop of
`createFilteredPatch`. -/
def filterStep (rules : List (String → Bool)) (st : FilterState) (line : String) :
    FilterState :=
  if isFileHeaderLine line then
    { st with filtered := st.filtered ++ [line] }
  else if strStartsWith line "@@" then
    { filtered := st.filtered ++ finalizeHunk st.hunk st.skipped
      hunk := [line]
      skipped := 0 }
  else if st.hunk.isEmpty then
    st
  else if strStartsWith line "+" then
    if matchesAny rules (strTrim (strTail line)) then
      { st with skipped := st.skipped + 1 }
    else
      { st with hunk := st.hunk ++ [line] }
  else
    { st with hunk := st.hunk ++ [line] }

/-- End-of-input flush of the still-accumulating hunk. -/
def filterFinish (st : FilterState) : List String :=
  st.filtered ++ finalizeHunk st.hunk st.skipped

/-- `createFilteredPatch` on the line list obtained from
`diff.split("\n")`. -/
def createFilteredPatchLines (rules : List (String → Bool)) (lines : List String) :
    List String :=
  filterFinish (lines.foldl (filterStep rules) ⟨[], [], 0⟩)

/-- The Patch Filter: `createFilteredPatch(diff)` with the compiled
rule set passed explicitly. -/
def createFilteredPatch (rules : List (String → Bool)) (diff : String) : String :=
  String.intercalate "\n" (createFilteredPatchLines rules (splitLines diff))

/-- Classification of a `DiffEntry` (`"added"`, `"removed"`,
`"context"` in the source). -/
inductive EntryKind where
  | added
  | removed
  | context
  deriving DecidableEq

/-- One classified, line-numbered entry of a hunk. -/
structure DiffEntry where
  kind : EntryKind
  content : String
  lineNumber : Nat
  deriving DecidableEq

/-- A parsed hunk: its raw header line and its entry list. -/
structure Hunk where
  header : String
  lines : List DiffEntry
  deriving DecidableEq

/-- File change kind; the source encodes these as the numbers 1
(modified), 6 (deleted) and 7 (untracked/new). -/
inductive FileChangeType where
  | modified
  | deleted
  | added
  deriving DecidableEq

/-- The numeric encoding used by the source for `FileChangeType`. -/
def FileChangeType.toCode : FileChangeType → Nat
  | .modified => 1
  | .deleted => 6
  | .added => 7

/-- `getFileChangeType`: substring markers decide the change type,
`new file mode` first, then `deleted file mode`, else modified. -/
def getFileChangeType (diff : String) : FileChangeType :=
  if strContains diff "new file mode" then .added
  else if strContains diff "deleted file mode" then .deleted
  else .modified

/-- The structured result of `parseDiff` for one file segment. -/
structure FileDiff where
  filePath : String
  type : FileChangeType
  hunks : List Hunk
  isBinary : Bool
  deriving DecidableEq

/-- The mutable loop state of `parseDiff`: accumulated `hunks`,
`currentHunk` and `currentLineNumber`. -/
structure ParseState where
  hunks : List Hunk
  current : Option Hunk
  lineNumber : Nat
  deriving DecidableEq

/-- One iteration of the `for (const line of lines)` loop of
`parseDiff`: skip file-header lines, open a new hunk at `@@` (seeding
the counter from the structurer's header pattern, default 0), classify
body lines by first character, skip `\` lines. -/
def parseStep (st : ParseState) (line : String) : ParseState :=
  if strStartsWith line "diff --git" || strStartsWith line "index " ||
      strStartsWith line "new file" || strStartsWith line "deleted file" then
    st
  else if strStartsWith line "@@" then
    { hunks := st.hunks ++ (match st.current with | some h => [h] | none => [])
      current := some { header := line, lines := [] }
      lineNumber := (searchStruct line.toList).getD 0 }
  else
    match st.current with
    | none => st
    | some h =>
      if strStartsWith line "+" then
        { st with
            current := some { h with lines := h.lines ++ [⟨.added, line, st.lineNumber⟩] }
            lineNumber := st.lineNumber + 1 }
      else if strStartsWith line "-" then
        { st with
            current := some { h with lines := h.lines ++ [⟨.removed, line, st.lineNumber⟩] } }
      else if strStartsWith line "\\" then
        st
      else
        { st with
            current := some { h with lines := h.lines ++ [⟨.context, line, st.lineNumber⟩] }
            lineNumber := st.lineNumber + 1 }

/-- End-of-input flush of `parseDiff`: the final hunk is kept only when
it has at least one entry. -/
def parseFinish (st : ParseState) : List Hunk :=
  st.hunks ++
    (match st.current with
      | some h => if h.lines.isEmpty then [] else [h]
      | none => [])

/-- `parseDiff(diff, filePath, type)`: binary segments short-circuit to
an empty hunk list with `isBinary`; otherwise the line loop runs. -/
def parseDiff (diff filePath : String) (ty : FileChangeType) : FileDiff :=
  if strContains diff "Binary files" || strContains diff "GIT binary patch" then
    { filePath := filePath, type := ty, hunks := [], isBinary := true }
  else
    { filePath := filePath
      type := ty
      hunks := parseFinish ((splitLines diff).foldl parseStep ⟨[], none, 0⟩)
      isBinary := false }

/-! ### Helper lemmas on line prefixes -/

lemma hasPrefixB_head_false {p c : Char} (ps cs : List Char) (h : (p == c) = false) :
    hasPrefixB (p :: ps) (c :: cs) = false := by
  simp [hasPrefixB, h]

lemma strStartsWith_false_of_head (pre : String) {l : String} {c : Char} {cs : List Char}
    (htl : l.toList = c :: cs) {p : Char} {ps : List Char}
    (hpre : pre.toList = p :: ps) (hne : (p == c) = false) :
    strStartsWith l pre = false := by
  unfold strStartsWith
  rw [hpre, htl]
  exact hasPrefixB_head_false ps cs hne

lemma startsWith_toList_cons (pre : String) {l : String} {p : Char} {ps : List Char}
    (hpre : pre.toList = p :: ps) (h : strStartsWith l pre = true) :
    ∃ cs, l.toList = p :: cs := by
  unfold strStartsWith at h
  rw [hpre] at h
  cases htl : l.toList with
  | nil => rw [htl] at h; simp [hasPrefixB] at h
  | cons c cs =>
    rw [htl] at h
    simp only [hasPrefixB, Bool.and_eq_true, beq_iff_eq] at h
    exact ⟨cs, by rw [h.1]⟩

/-- A line starting with the no-newline marker `\` starts with none of
the prefixes the two loops test for. -/
lemma backslash_line_facts (line : String) (hb : strStartsWith line "\\" = true) :
    isFileHeaderLine line = false ∧ strStartsWith line "@@" = false ∧
    strStartsWith line "+" = false ∧ strStartsWith line "-" = false ∧
    strStartsWith line "diff --git" = false ∧ strStartsWith line "index " = false ∧
    strStartsWith line "new file" = false ∧ strStartsWith line "deleted file" = false := by
  obtain ⟨cs, htl⟩ := startsWith_toList_cons "\\" rfl hb
  refine ⟨?_, ?_, ?_, ?_, ?_, ?_, ?_, ?_⟩
  · unfold isFileHeaderLine
    rw [strStartsWith_false_of_head "diff " htl rfl (by decide),
      strStartsWith_false_of_head "index " htl rfl (by decide),
      strStartsWith_false_of_head "--- " htl rfl (by decide),
      strStartsWith_false_of_head "+++ " htl rfl (by decide)]
    rfl
  · exact strStartsWith_false_of_head "@@" htl rfl (by decide)
  · exact strStartsWith_false_of_head "+" htl rfl (by decide)
  · exact strStartsWith_false_of_head "-" htl rfl (by decide)
  · exact strStartsWith_false_of_head "diff --git" htl rfl (by decide)
  · exact strStartsWith_false_of_head "index " htl rfl (by decide)
  · exact strStartsWith_false_of_head "new file" htl rfl (by decide)
  · exact strStartsWith_false_of_head "deleted file" htl rfl (by decide)

/-! ### Claims about change-type classification and binary segments -/

/-- Claim C7: `getFileChangeType` returns Added exactly when the
segment contains `new file mode`, Deleted exactly when it does not
contain `new file mode` but contains `deleted file mode`, and Modified
otherwise. -/
theorem getFileChangeType_spec (d : String) :
    (getFileChangeType d = .added ↔ strContains d "new file mode" = true) ∧
    (getFileChangeType d = .deleted ↔
      (strContains d "new file mode" = false ∧ strContains d "deleted file mode" = true)) ∧
    (getFileChangeType d = .modified ↔
      (strContains d "new file mode" = false ∧ strContains d "deleted file mode" = false)) := by
  unfold getFileChangeType
  cases hn : strContains d "new file mode" <;>
    cases hd : strContains d "deleted file mode" <;> simp

/-- Claim C6: a file-diff segment containing `Binary files` or the
`GIT binary patch` marker is returned with an empty hunk sequence and
`isBinary = true`; the line-classification loop is never entered. -/
theorem parseDiff_binary_empty_hunks (diff fp : String) (t : FileChangeType)
    (h : strContains diff "Binary files" = true ∨ strContains diff "GIT binary patch" = true) :
    parseDiff diff fp t = { filePath := fp, type := t, hunks := [], isBinary := true } := by
  unfold parseDiff
  rcases h with h | h <;> simp [h]

/-- Witness for C6 at a concrete binary segment. -/
theorem parseDiff_binary_empty_hunks_witness :
    parseDiff "Binary files a/i.png and b/i.png differ" "i.png" FileChangeType.modified =
      { filePath := "i.png", type := FileChangeType.modified, hunks := [], isBinary := true } :=
  parseDiff_binary_empty_hunks _ _ _ (Or.inl (by decide))

/-! ### Claim about the no-newline marker -/

/-- Claim C8: inside a hunk, a line beginning with `\` is appended to
the accumulating hunk unchanged by the Patch Filter, leaving the
skipped-line counter (and hence the rewritten header's counts) and the
already-flushed output untouched; the Diff Structurer's step leaves its
entire state unchanged on such a line, so the line is omitted from the
entry list and the line-number counter does not advance. -/
theorem noNewline_marker_passthrough (rules : List (String → Bool))
    (fst : FilterState) (pst : ParseState) (line : String)
    (hb : strStartsWith line "\\" = true) :
    (fst.hunk ≠ [] → filterStep rules fst line = { fst with hunk := fst.hunk ++ [line] }) ∧
    parseStep pst line = pst := by
  obtain ⟨hfh, hat, hplus, hminus, hdg, hidx, hnf, hdf⟩ := backslash_line_facts line hb
  constructor
  · intro hne
    rcases hhk : fst.hunk with _ | ⟨a, t⟩
    · exact absurd hhk hne
    · simp [filterStep, hfh, hat, hplus, hhk]
  · rcases pst with ⟨hks, cur, n⟩
    cases cur with
    | none => simp [parseStep, hdg, hidx, hnf, hdf, hat]
    | some h => simp [parseStep, hdg, hidx, hnf, hdf, hat, hplus, hminus, hb]

/-- Witness for C8 at a concrete filter state, parse state and
no-newline marker line. -/
theorem noNewline_marker_passthrough_witness :
    filterStep [] ⟨["--- a/f"], ["@@ -1,1 +1,1 @@", " x"], 0⟩ "\\ No newline at end of file" =
      ⟨["--- a/f"], ["@@ -1,1 +1,1 @@", " x", "\\ No newline at end of file"], 0⟩ ∧
    parseStep ⟨[], some ⟨"@@ -1,1 +1,1 @@", [⟨EntryKind.context, " x", 1⟩]⟩, 2⟩
        "\\ No newline at end of file" =
      ⟨[], some ⟨"@@ -1,1 +1,1 @@", [⟨EntryKind.context, " x", 1⟩]⟩, 2⟩ := by
  have h := noNewline_marker_passthrough [] ⟨["--- a/f"], ["@@ -1,1 +1,1 @@", " x"], 0⟩
    ⟨[], some ⟨"@@ -1,1 +1,1 @@", [⟨EntryKind.context, " x", 1⟩]⟩, 2⟩
    "\\ No newline at end of file" (by decide)
  exact ⟨h.1 (by decide), h.2⟩

/-! ### Claim about inputs without hunk headers -/

lemma filter_no_hunk_aux (rules : List (String → Bool)) :
    ∀ (ls : List String) (fl : List String),
      (∀ l ∈ ls, strStartsWith l "@@" = false) →
      ls.foldl (filterStep rules) ⟨fl, [], 0⟩ = ⟨fl ++ ls.filter isFileHeaderLine, [], 0⟩ := by
  intro ls
  induction ls with
  | nil => intro fl _; simp
  | cons l rest ih =>
    intro fl h
    have hat := h l (List.mem_cons_self ..)
    have hrest : ∀ x ∈ rest, strStartsWith x "@@" = false := fun x hx =>
      h x (List.mem_cons_of_mem _ hx)
    rw [List.foldl_cons]
    cases hfh : isFileHeaderLine l with
    | false =>
      have hstep : filterStep rules ⟨fl, [], 0⟩ l = ⟨fl, [], 0⟩ := by
        simp [filterStep, hfh, hat, List.isEmpty]
      rw [hstep, ih fl hrest, List.filter_cons, hfh]
      simp
    | true =>
      have hstep : filterStep rules ⟨fl, [], 0⟩ l = ⟨fl ++ [l], [], 0⟩ := by
        simp [filterStep, hfh]
      rw [hstep, ih (fl ++ [l]) hrest, List.filter_cons, hfh]
      simp

/-- Claim C9 (amended): on input with no line starting with `@@`, the
Patch Filter's output consists of exactly those input lines beginning
with one of the four recognized file-header prefixes (`diff `,
`index `, `--- `, `+++ `), in their original order; all other lines
(such as `new file mode 100644`, `old mode`, or `similarity index`) are
dropped, not passed through. -/
theorem filter_no_hunk_headers (rules : List (String → Bool)) (lines : List String)
    (h : ∀ l ∈ lines, strStartsWith l "@@" = false) :
    createFilteredPatchLines rules lines = lines.filter isFileHeaderLine := by
  unfold createFilteredPatchLines
  rw [filter_no_hunk_aux rules lines [] h]
  simp [filterFinish, finalizeHunk]

/-- Counterexample for C9 as stated: the hunk-free input
`new file mode 100644` is not passed through unchanged — it is dropped
entirely (the output is empty). -/
theorem filter_no_hunk_headers_cex :
    createFilteredPatch [] "new file mode 100644" ≠ "new file mode 100644" := by decide

/-- Witness for amended C9: only the `diff ` and `index ` prefixed
lines of a hunk-free input survive. -/
theorem filter_no_hunk_headers_witness :
    createFilteredPatchLines []
        ["diff --git a/f b/f", "new file mode 100644", "index 0000000..e69de29",
          "similarity index 100%"] =
      ["diff --git a/f b/f", "index 0000000..e69de29"] := by
  rw [filter_no_hunk_headers []
    ["diff --git a/f b/f", "new file mode 100644", "index 0000000..e69de29",
      "similarity index 100%"] (by decide)]
  decide

/-! ### Claim about the shared hunk-header codec -/

lemma searchHeader_of_matchAt {cs : List Char} {r : Nat × List Char × Nat × Nat}
    (h : matchHeaderAt cs = some r) : searchHeader cs = some r := by
  cases cs with
  | nil => simpa [searchHeader] using h
  | cons c cs => simp [searchHeader, h]

lemma searchStruct_of_matchAt {cs : List Char} {n : Nat}
    (h : matchStructAt cs = some n) : searchStruct cs = some n := by
  cases cs with
  | nil => simpa [searchStruct] using h
  | cons c cs => simp [searchStruct, h]

lemma matchStructAt_of_matchHeaderAt {cs : List Char} {a : Nat} {bs : List Char} {c d : Nat}
    (h : matchHeaderAt cs = some (a, bs, c, d)) : matchStructAt cs = some c := by
  unfold matchHeaderAt at h
  rcases h1 : dropLit "@@ -".toList cs with _ | cs1
  · rw [h1] at h
    exact Option.noConfusion h
  simp only [h1] at h
  rcases h2 : digits1 cs1 with _ | ⟨da, cs2⟩
  · rw [h2] at h
    exact Option.noConfusion h
  simp only [h2] at h
  rcases h3 : dropLit [','] cs2 with _ | cs3
  · rw [h3] at h
    exact Option.noConfusion h
  simp only [h3] at h
  rcases h4 : digits1 cs3 with _ | ⟨db, cs4⟩
  · rw [h4] at h
    exact Option.noConfusion h
  simp only [h4] at h
  rcases h5 : dropLit " +".toList cs4 with _ | cs5
  · rw [h5] at h
    exact Option.noConfusion h
  simp only [h5] at h
  rcases h6 : digits1 cs5 with _ | ⟨dc, cs6⟩
  · rw [h6] at h
    exact Option.noConfusion h
  simp only [h6] at h
  rcases h7 : dropLit [','] cs6 with _ | cs7
  · rw [h7] at h
    exact Option.noConfusion h
  simp only [h7] at h
  rcases h8 : digits1 cs7 with _ | ⟨dd, cs8⟩
  · rw [h8] at h
    exact Option.noConfusion h
  simp only [h8] at h
  rcases h9 : dropLit " @@".toList cs8 with _ | rest
  · rw [h9] at h
    exact Option.noConfusion h
  simp only [h9] at h
  simp only [Option.some.injEq, Prod.mk.injEq] at h
  obtain ⟨rfl, rfl, rfl, rfl⟩ := h
  simp only [matchStructAt, structOldOpt, structTail, structCloseOpt, structEnd,
    h1, h2, h3, h4, h5, h6, h7, h8, h9]

/-- Claim C3 (amended): on any header line that begins with the full
pattern `@@ -a,b +c,d @@` (both counts explicit), the Patch Filter's
header regex and the Diff Structurer's header regex both recognize the
line, and the structurer's single capture agrees with the filter's
`newStart` value `c`.  (The structurer extracts only `newStart`; the
filter rejects headers with a missing count rather than defaulting it
to 1, see the counterexample.) -/
theorem header_codecs_agree (l : String) (a : Nat) (bs : List Char) (c d : Nat)
    (h : matchHeaderAt l.toList = some (a, bs, c, d)) :
    searchHeader l.toList = some (a, bs, c, d) ∧ searchStruct l.toList = some c :=
  ⟨searchHeader_of_matchAt h,
    searchStruct_of_matchAt (matchStructAt_of_matchHeaderAt h)⟩

/-- Counterexample for C3 as stated: the header `@@ -1 +1 @@` (counts
omitted) is recognized by the Diff Structurer's pattern but not by the
Patch Filter's pattern, so the two components do not recognize the same
set of header lines, and the filter does not default missing counts
to 1. -/
theorem header_codecs_agree_cex :
    searchHeader "@@ -1 +1 @@".toList = none ∧
      searchStruct "@@ -1 +1 @@".toList = some 1 := by
  exact ⟨by decide, by decide⟩

/-- Witness for amended C3 at the concrete header `@@ -1,2 +3,4 @@`. -/
theorem header_codecs_agree_witness :
    searchHeader "@@ -1,2 +3,4 @@".toList = some (1, ['2'], 3, 4) ∧
      searchStruct "@@ -1,2 +3,4 @@".toList = some 3 :=
  header_codecs_agree "@@ -1,2 +3,4 @@" 1 ['2'] 3 4 (by decide)

/-! ### Hunk-processing lemmas for the Patch Filter -/

/-- A line starting with `@@` is none of the four file-header kinds. -/
lemma at_not_fileHeader {l : String} (h : strStartsWith l "@@" = true) :
    isFileHeaderLine l = false := by
  obtain ⟨cs, htl⟩ := startsWith_toList_cons "@@" rfl h
  unfold isFileHeaderLine
  rw [strStartsWith_false_of_head "diff " htl rfl (by decide),
    strStartsWith_false_of_head "index " htl rfl (by decide),
    strStartsWith_false_of_head "--- " htl rfl (by decide),
    strStartsWith_false_of_head "+++ " htl rfl (by decide)]
  rfl

/-- Leading file-header lines are copied verbatim while no hunk is
accumulating. -/
lemma foldl_fileHeaders (rules : List (String → Bool)) :
    ∀ (hs : List String) (fl : List String),
      (∀ l ∈ hs, isFileHeaderLine l = true) →
      hs.foldl (filterStep rules) ⟨fl, [], 0⟩ = ⟨fl ++ hs, [], 0⟩ := by
  intro hs
  induction hs with
  | nil => intro fl _; simp
  | cons l rest ih =>
    intro fl h
    have hfh := h l (List.mem_cons_self ..)
    have hstep : filterStep rules ⟨fl, [], 0⟩ l = ⟨fl ++ [l], [], 0⟩ := by
      simp [filterStep, hfh]
    rw [List.foldl_cons, hstep, ih (fl ++ [l]) (fun x hx => h x (List.mem_cons_of_mem _ hx))]
    simp

/-- The body lines the filter keeps: everything except added lines whose
prefix-stripped, trimmed content matches some exclusion rule. -/
def keptBody (rules : List (String → Bool)) (body : List String) : List String :=
  body.filter fun l => !(strStartsWith l "+" && matchesAny rules (strTrim (strTail l)))

/-- The number of added body lines the filter drops (the final value of
`skippedLines` for the hunk). -/
def droppedCount (rules : List (String → Bool)) (body : List String) : Nat :=
  (body.filter fun l => strStartsWith l "+" && matchesAny rules (strTrim (strTail l))).length

/-- Folding the filter step over hunk-body lines: kept lines are
appended to the accumulating hunk, matching added lines bump the skip
counter. -/
lemma foldl_hunk_body (rules : List (String → Bool)) :
    ∀ (body : List String) (fl hk : List String) (k : Nat), hk ≠ [] →
      (∀ l ∈ body, isFileHeaderLine l = false ∧ strStartsWith l "@@" = false) →
      body.foldl (filterStep rules) ⟨fl, hk, k⟩ =
        ⟨fl, hk ++ keptBody rules body, k + droppedCount rules body⟩ := by
  intro body
  induction body with
  | nil => intro fl hk k _ _; simp [keptBody, droppedCount]
  | cons l rest ih =>
    intro fl hk k hne h
    obtain ⟨hfh, hat⟩ := h l (List.mem_cons_self ..)
    have hrest : ∀ x ∈ rest, isFileHeaderLine x = false ∧ strStartsWith x "@@" = false :=
      fun x hx => h x (List.mem_cons_of_mem _ hx)
    have hkemp : hk.isEmpty = false := by
      cases hk with
      | nil => exact absurd rfl hne
      | cons a t => rfl
    rw [List.foldl_cons]
    by_cases hp : strStartsWith l "+" = true
    · by_cases hm : matchesAny rules (strTrim (strTail l)) = true
      · have hstep : filterStep rules ⟨fl, hk, k⟩ l = ⟨fl, hk, k + 1⟩ := by
          simp [filterStep, hfh, hat, hkemp, hp, hm]
        rw [hstep, ih fl hk (k + 1) hne hrest]
        simp only [keptBody, droppedCount, List.filter_cons, hp, hm]
        simp only [Bool.and_self, Bool.not_true, Bool.true_and, if_true, if_false]
        refine congrArg _ ?_
        simp [Nat.add_comm, Nat.add_assoc, Nat.add_left_comm]
      · have hstep : filterStep rules ⟨fl, hk, k⟩ l = ⟨fl, hk ++ [l], k⟩ := by
          simp [filterStep, hfh, hat, hkemp, hp, hm]
        rw [hstep, ih fl (hk ++ [l]) k (by simp) hrest]
        simp only [keptBody, droppedCount, List.filter_cons, hp,
          Bool.true_and, hm]
        simp
    · have hp' : strStartsWith l "+" = false := by
        cases hx : strStartsWith l "+"
        · rfl
        · exact absurd hx hp
      have hstep : filterStep rules ⟨fl, hk, k⟩ l = ⟨fl, hk ++ [l], k⟩ := by
        simp [filterStep, hfh, hat, hkemp, hp']
      rw [hstep, ih fl (hk ++ [l]) k (by simp) hrest]
      simp only [keptBody, droppedCount, List.filter_cons, hp', Bool.false_and]
      simp

/-- Claim C1: for a diff consisting of file-header lines followed by one
hunk whose header line matches the filter's pattern `@@ -a,b +c,d @@`,
the output keeps `oldStart = a`, the raw `oldCount` digits `b` and
`newStart = c` unchanged and replaces `newCount` with `d` minus the
number of added body lines whose prefix-stripped, trimmed content
matches at least one exclusion rule; the matching added lines are
removed from the body and everything else is kept in order. -/
theorem filter_hunk_header_rewrite (rules : List (String → Bool))
    (headers : List String) (hdr : String) (body : List String)
    (a : Nat) (bs : List Char) (c d : Nat)
    (hhs : ∀ l ∈ headers, isFileHeaderLine l = true)
    (hat : strStartsWith hdr "@@" = true)
    (hm : searchHeader hdr.toList = some (a, bs, c, d))
    (hb : ∀ l ∈ body, isFileHeaderLine l = false ∧ strStartsWith l "@@" = false) :
    createFilteredPatchLines rules (headers ++ hdr :: body) =
      headers ++
        mkFilterHeader a bs c ((d : Int) - (droppedCount rules body : Int)) ::
          keptBody rules body := by
  unfold createFilteredPatchLines
  rw [List.foldl_append, foldl_fileHeaders rules headers [] hhs, List.foldl_cons]
  have hstep : filterStep rules ⟨[] ++ headers, [], 0⟩ hdr = ⟨[] ++ headers, [hdr], 0⟩ := by
    simp [filterStep, at_not_fileHeader hat, hat, finalizeHunk]
  rw [hstep, foldl_hunk_body rules body ([] ++ headers) [hdr] 0 (by simp) hb]
  unfold filterFinish finalizeHunk
  simp only [List.cons_append, List.nil_append, searchHeader, hm]
  simp

/-- Witness for C1: the example hunk `@@ -10,3 +10,4 @@` with body
`[" ctx1", "+console.log('x')", "+keep()", " ctx2"]` and the rule
matching lines that begin (after trimming) with `console.` filters to
header `@@ -10,3 +10,3 @@` and body `[" ctx1", "+keep()", " ctx2"]`. -/
theorem filter_hunk_header_rewrite_witness :
    createFilteredPatchLines [fun s => strStartsWith s "console."]
        ["@@ -10,3 +10,4 @@", " ctx1", "+console.log(\x27x\x27)", "+keep()", " ctx2"] =
      ["@@ -10,3 +10,3 @@", " ctx1", "+keep()", " ctx2"] := by
  have h := filter_hunk_header_rewrite [fun s => strStartsWith s "console."]
    [] "@@ -10,3 +10,4 @@" [" ctx1", "+console.log(\x27x\x27)", "+keep()", " ctx2"]
    10 ['3'] 10 4 (by simp) (by decide) (by decide) (by decide)
  rw [List.nil_append] at h
  rw [h]
  decide

/-- `dropLit` consumes exactly the literal. -/
lemma dropLit_eq_append : ∀ (ps cs rest : List Char),
    dropLit ps cs = some rest → cs = ps ++ rest := by
  intro ps
  induction ps with
  | nil => intro cs rest h; cases h; rfl
  | cons p ps ih =>
    intro cs rest h
    cases cs with
    | nil => exact Option.noConfusion h
    | cons c cs =>
      unfold dropLit at h
      by_cases hpc : (p == c) = true
      · rw [if_pos hpc] at h
        rw [List.cons_append, ← ih cs rest h, (beq_iff_eq ..).mp hpc]
      · rw [if_neg hpc] at h
        exact Option.noConfusion h

/-- A line on which the filter's header pattern matches at position 0
starts with `@@`. -/
lemma matchHeaderAt_startsWith {l : String} {r : Nat × List Char × Nat × Nat}
    (h : matchHeaderAt l.toList = some r) : strStartsWith l "@@" = true := by
  unfold matchHeaderAt at h
  rcases h1 : dropLit "@@ -".toList l.toList with _ | cs1
  · rw [h1] at h
    exact Option.noConfusion h
  · have := dropLit_eq_append _ _ _ h1
    unfold strStartsWith
    rw [this]
    rfl

/-- Claim C10: when a hunk's header line begins with the full pattern
`@@ -a,b +c,d @@` — possibly followed by trailing text such as git's
function-context annotation — and no added body line matches a rule,
the filter still emits the header in exact canonical rebuilt form
`@@ -a,b +c,d @@` (any trailing text is removed) and keeps the body
unchanged. -/
theorem filter_header_canonical_form (rules : List (String → Bool))
    (headers : List String) (hdr : String) (body : List String)
    (a : Nat) (bs : List Char) (c d : Nat)
    (hhs : ∀ l ∈ headers, isFileHeaderLine l = true)
    (hm : matchHeaderAt hdr.toList = some (a, bs, c, d))
    (hb : ∀ l ∈ body, isFileHeaderLine l = false ∧ strStartsWith l "@@" = false)
    (hnone : ∀ l ∈ body, strStartsWith l "+" = true →
      matchesAny rules (strTrim (strTail l)) = false) :
    createFilteredPatchLines rules (headers ++ hdr :: body) =
      headers ++ mkFilterHeader a bs c (d : Int) :: body := by
  have hat : strStartsWith hdr "@@" = true := matchHeaderAt_startsWith hm
  have hpred : ∀ l ∈ body, (strStartsWith l "+" && matchesAny rules (strTrim (strTail l))) = false := by
    intro l hl
    by_cases hp : strStartsWith l "+" = true
    · rw [hp, hnone l hl hp]
      rfl
    · cases hx : strStartsWith l "+"
      · rfl
      · exact absurd hx hp
  have hkept : keptBody rules body = body := by
    unfold keptBody
    refine List.filter_eq_self.mpr ?_
    intro l hl
    rw [hpred l hl]
    rfl
  have hdc : droppedCount rules body = 0 := by
    unfold droppedCount
    have : body.filter (fun l => strStartsWith l "+" && matchesAny rules (strTrim (strTail l))) = [] := by
      refine List.filter_eq_nil_iff.mpr ?_
      intro l hl
      rw [hpred l hl]
      simp
    rw [this]
    rfl
  have h := filter_hunk_header_rewrite rules headers hdr body a bs c d hhs hat
    (searchHeader_of_matchAt hm) hb
  rw [hkept, hdc] at h
  simpa using h

/-- Witness for C10: the trailing annotation ` function foo()` is
stripped from the emitted header even though nothing was filtered. -/
theorem filter_header_canonical_form_witness :
    createFilteredPatchLines [fun s => strStartsWith s "console."]
        ["--- a/f", "+++ b/f", "@@ -1,2 +3,4 @@ function foo()", " a", "+keep", "-old"] =
      ["--- a/f", "+++ b/f", "@@ -1,2 +3,4 @@", " a", "+keep", "-old"] := by
  have h := filter_header_canonical_form [fun s => strStartsWith s "console."]
    ["--- a/f", "+++ b/f"] "@@ -1,2 +3,4 @@ function foo()" [" a", "+keep", "-old"]
    1 ['2'] 3 4 (by decide) (by decide) (by decide) (by decide)
  exact h.trans (by decide)

/-! ### Claim about filtering with an empty rule set -/

/-- A header line is canonical when rebuilding it from its own parsed
groups reproduces it exactly (lines the pattern does not match are
trivially canonical: the filter leaves them untouched). -/
def canonicalHeader (l : String) : Bool :=
  match searchHeader l.toList with
  | none => true
  | some (a, bs, c, d) => l == mkFilterHeader a bs c (d : Int)

/-- Finalizing with a zero skip count leaves a canonical-headed hunk
unchanged. -/
lemma finalize_canonical {h : String} (rest : List String)
    (hc : canonicalHeader h = true) : finalizeHunk (h :: rest) 0 = h :: rest := by
  unfold canonicalHeader at hc
  unfold finalizeHunk
  cases hm : searchHeader h.toList with
  | none => simp only [hm]
  | some r =>
    obtain ⟨a, bs, c, d⟩ := r
    rw [hm] at hc
    have he : h = mkFilterHeader a bs c (d : Int) := (beq_iff_eq ..).mp hc
    simp only [hm]
    rw [he]
    simp

/-- After the first hunk header, filtering with the empty rule set
keeps every line in place provided no later line looks like a file
header and every header line is canonical. -/
lemma empty_rules_phase2 :
    ∀ (ls : List String) (fl hk : List String), hk ≠ [] →
      (∀ h ∈ hk.head?, canonicalHeader h = true) →
      (∀ l ∈ ls, isFileHeaderLine l = false) →
      (∀ l ∈ ls, strStartsWith l "@@" = true → canonicalHeader l = true) →
      filterFinish (ls.foldl (filterStep []) ⟨fl, hk, 0⟩) = fl ++ hk ++ ls := by
  intro ls
  induction ls with
  | nil =>
    intro fl hk hne hcan _ _
    rcases hk with _ | ⟨h, rest⟩
    · exact absurd rfl hne
    · simp only [List.foldl_nil]
      unfold filterFinish
      rw [finalize_canonical rest (hcan h (by simp))]
      simp
  | cons l rest ih =>
    intro fl hk hne hcan hfhs hcans
    have hfh : isFileHeaderLine l = false := hfhs l (List.mem_cons_self ..)
    have hkemp : hk.isEmpty = false := by
      cases hk with
      | nil => exact absurd rfl hne
      | cons a t => rfl
    rw [List.foldl_cons]
    by_cases hat : strStartsWith l "@@" = true
    · rcases hk with _ | ⟨h, hkrest⟩
      · exact absurd rfl hne
      have hstep : filterStep [] ⟨fl, h :: hkrest, 0⟩ l = ⟨fl ++ (h :: hkrest), [l], 0⟩ := by
        simp only [filterStep, hfh, hat]
        rw [finalize_canonical hkrest (hcan h (by simp))]
        simp
      rw [hstep, ih (fl ++ (h :: hkrest)) [l] (by simp)
        (by intro x hx; simp only [List.head?] at hx; rw [Option.mem_def, Option.some.injEq] at hx;
            rw [← hx] at *; exact hcans l (List.mem_cons_self ..) hat)
        (fun x hx => hfhs x (List.mem_cons_of_mem _ hx))
        (fun x hx hx2 => hcans x (List.mem_cons_of_mem _ hx) hx2)]
      simp
    · have hat' : strStartsWith l "@@" = false := by
        cases hx : strStartsWith l "@@"
        · rfl
        · exact absurd hx hat
      have hstep : filterStep [] ⟨fl, hk, 0⟩ l = ⟨fl, hk ++ [l], 0⟩ := by
        by_cases hp : strStartsWith l "+" = true
        · simp [filterStep, hfh, hat', hkemp, hp, matchesAny]
        · have hp' : strStartsWith l "+" = false := by
            cases hx : strStartsWith l "+"
            · rfl
            · exact absurd hx hp
          simp [filterStep, hfh, hat', hkemp, hp']
      rw [hstep, ih fl (hk ++ [l]) (by simp)
        (by
          intro x hx
          rcases hk with _ | ⟨h, hkrest⟩
          · exact absurd rfl hne
          · simp only [List.cons_append, List.head?] at hx
            rw [Option.mem_def, Option.some.injEq] at hx
            rw [← hx]
            exact hcan h (by simp))
        (fun x hx => hfhs x (List.mem_cons_of_mem _ hx))
        (fun x hx hx2 => hcans x (List.mem_cons_of_mem _ hx) hx2)]
      simp

/-- Claim C2 (amended): filtering with the empty rule set returns the
input lines unchanged for well-formed single-file diffs — those whose
lines before the first hunk header all carry one of the four
file-header prefixes, whose remaining lines carry none of them, and
whose hunk-header lines are in exact canonical `@@ -a,b +c,d @@` form.
(As stated the claim is false: lines such as `new file mode 100644`
before the first hunk are dropped even with no rules — see the
counterexample.) -/
theorem filter_empty_rules_identity (lines pre post : List String)
    (hsplit : lines = pre ++ post)
    (hpre : ∀ l ∈ pre, isFileHeaderLine l = true)
    (hpost : ∀ l ∈ post, isFileHeaderLine l = false)
    (hhead : (post.head?.all fun l => strStartsWith l "@@") = true)
    (hcanon : ∀ l ∈ post, strStartsWith l "@@" = true → canonicalHeader l = true) :
    createFilteredPatchLines [] lines = lines := by
  subst hsplit
  unfold createFilteredPatchLines
  rw [List.foldl_append, foldl_fileHeaders [] pre [] hpre]
  cases post with
  | nil => simp [filterFinish, finalizeHunk]
  | cons l rest =>
    have hat : strStartsWith l "@@" = true := by simpa [Option.all] using hhead
    have hfh : isFileHeaderLine l = false := hpost l (List.mem_cons_self ..)
    rw [List.foldl_cons]
    have hstep : filterStep [] ⟨[] ++ pre, [], 0⟩ l = ⟨[] ++ pre, [l], 0⟩ := by
      simp [filterStep, hfh, hat, finalizeHunk]
    rw [hstep, empty_rules_phase2 rest ([] ++ pre) [l] (by simp)
      (by
        intro x hx
        simp only [List.head?] at hx
        rw [Option.mem_def, Option.some.injEq] at hx
        rw [← hx]
        exact hcanon l (List.mem_cons_self ..) hat)
      (fun x hx => hpost x (List.mem_cons_of_mem _ hx))
      (fun x hx hx2 => hcanon x (List.mem_cons_of_mem _ hx) hx2)]
    simp

/-- Counterexample for C2 as stated: with the empty rule set, the line
`new file mode 100644` of a well-formed new-file diff is dropped, so
the output is not byte-identical to the input. -/
theorem filter_empty_rules_identity_cex :
    createFilteredPatch []
        "diff --git a/f b/f\nnew file mode 100644\n--- /dev/null\n+++ b/f\n@@ -0,0 +1,1 @@\n+x" ≠
      "diff --git a/f b/f\nnew file mode 100644\n--- /dev/null\n+++ b/f\n@@ -0,0 +1,1 @@\n+x" := by
  decide

/-- Witness for amended C2 on a complete single-file diff. -/
theorem filter_empty_rules_identity_witness :
    createFilteredPatchLines []
        ["diff --git a/f b/f", "index 1111111..2222222 100644", "--- a/f", "+++ b/f",
          "@@ -1,2 +1,3 @@", " line1", "+added", " line2"] =
      ["diff --git a/f b/f", "index 1111111..2222222 100644", "--- a/f", "+++ b/f",
        "@@ -1,2 +1,3 @@", " line1", "+added", " line2"] :=
  filter_empty_rules_identity _
    ["diff --git a/f b/f", "index 1111111..2222222 100644", "--- a/f", "+++ b/f"]
    ["@@ -1,2 +1,3 @@", " line1", "+added", " line2"]
    rfl (by decide) (by decide) (by decide) (by decide)

/-! ### Claim about the number of added body lines -/

/-- A body line beginning with `+`, excluding the `+++ ` file-header
line. -/
def isPlusBodyLine (l : String) : Bool :=
  strStartsWith l "+" && !strStartsWith l "+++ "

/-- The number of added body lines in a line list. -/
def countPlus (ls : List String) : Nat :=
  (ls.filter isPlusBodyLine).length

/-- The number of added body lines the filter drops while scanning the
given lines, starting with the hunk accumulator active or not: an added
line is dropped when it occurs before any hunk header, or when it
occurs inside a hunk and its trimmed content matches some rule. -/
def countDrop (rules : List (String → Bool)) : Bool → List String → Nat
  | _, [] => 0
  | active, l :: ls =>
    if isFileHeaderLine l then countDrop rules active ls
    else if strStartsWith l "@@" then countDrop rules true ls
    else if active then
      (if strStartsWith l "+" && matchesAny rules (strTrim (strTail l)) then 1 else 0) +
        countDrop rules active ls
    else
      (if strStartsWith l "+" then 1 else 0) + countDrop rules active ls

lemma countPlus_cons (l : String) (ls : List String) :
    countPlus (l :: ls) = (if isPlusBodyLine l then 1 else 0) + countPlus ls := by
  unfold countPlus
  rw [List.filter_cons]
  cases h : isPlusBodyLine l <;> simp [Nat.add_comm]

lemma countPlus_append (a b : List String) :
    countPlus (a ++ b) = countPlus a + countPlus b := by
  unfold countPlus
  rw [List.filter_append, List.length_append]

lemma at_not_plusBody {l : String} (h : strStartsWith l "@@" = true) :
    isPlusBodyLine l = false := by
  obtain ⟨cs, htl⟩ := startsWith_toList_cons "@@" rfl h
  unfold isPlusBodyLine
  rw [strStartsWith_false_of_head "+" htl rfl (by decide)]
  rfl

lemma fileHeader_not_plusBody {l : String} (h : isFileHeaderLine l = true) :
    isPlusBodyLine l = false := by
  unfold isFileHeaderLine at h
  simp only [Bool.or_eq_true] at h
  rcases h with ((h | h) | h) | h
  · obtain ⟨cs, htl⟩ := startsWith_toList_cons "diff " rfl h
    unfold isPlusBodyLine
    rw [strStartsWith_false_of_head "+" htl rfl (by decide)]
    rfl
  · obtain ⟨cs, htl⟩ := startsWith_toList_cons "index " rfl h
    unfold isPlusBodyLine
    rw [strStartsWith_false_of_head "+" htl rfl (by decide)]
    rfl
  · obtain ⟨cs, htl⟩ := startsWith_toList_cons "--- " rfl h
    unfold isPlusBodyLine
    rw [strStartsWith_false_of_head "+" htl rfl (by decide)]
    rfl
  · unfold isPlusBodyLine
    rw [h]
    simp

lemma plusBody_of_plus {l : String} (hfh : isFileHeaderLine l = false)
    (hp : strStartsWith l "+" = true) : isPlusBodyLine l = true := by
  unfold isFileHeaderLine at hfh
  simp only [Bool.or_eq_false_iff] at hfh
  unfold isPlusBodyLine
  rw [hp, hfh.2]
  rfl

lemma plusBody_false_of_not_plus {l : String} (hp : strStartsWith l "+" = false) :
    isPlusBodyLine l = false := by
  unfold isPlusBodyLine
  rw [hp]
  rfl

lemma mkFilterHeader_head (a : Nat) (bs : List Char) (c : Nat) (d : Int) :
    ∃ rest, (mkFilterHeader a bs c d).toList = '@' :: '@' :: rest := by
  unfold mkFilterHeader
  show ∃ rest, String.data _ = _
  simp only [String.data_append, List.append_assoc]
  exact ⟨_, rfl⟩

lemma mkFilterHeader_not_plusBody (a : Nat) (bs : List Char) (c : Nat) (d : Int) :
    isPlusBodyLine (mkFilterHeader a bs c d) = false := by
  obtain ⟨rest, htl⟩ := mkFilterHeader_head a bs c d
  unfold isPlusBodyLine
  rw [strStartsWith_false_of_head "+" htl rfl (by decide)]
  rfl

lemma countPlus_finalize (hk : List String) (k : Nat)
    (hhead : ∀ h ∈ hk.head?, strStartsWith h "@@" = true) :
    countPlus (finalizeHunk hk k) = countPlus hk := by
  cases hk with
  | nil => rfl
  | cons h rest =>
    have hat : strStartsWith h "@@" = true := hhead h (by simp)
    unfold finalizeHunk
    cases hm : searchHeader h.toList with
    | none => simp only [hm]
    | some r =>
      obtain ⟨a, bs, c, d⟩ := r
      simp only [hm]
      rw [countPlus_cons, countPlus_cons, mkFilterHeader_not_plusBody, at_not_plusBody hat]

lemma countPlus_filter_aux (rules : List (String → Bool)) :
    ∀ (ls fl hk : List String) (k : Nat),
      (∀ h ∈ hk.head?, strStartsWith h "@@" = true) →
      countPlus (filterFinish (ls.foldl (filterStep rules) ⟨fl, hk, k⟩)) +
          countDrop rules (!hk.isEmpty) ls =
        countPlus fl + countPlus hk + countPlus ls := by
  intro ls
  induction ls with
  | nil =>
    intro fl hk k hhead
    simp only [List.foldl_nil, countDrop]
    simp only [filterFinish]
    rw [countPlus_append, countPlus_finalize hk k hhead]
    simp [countPlus]
  | cons l rest ih =>
    intro fl hk k hhead
    rw [List.foldl_cons]
    cases hfh : isFileHeaderLine l with
    | true =>
      have hstep : filterStep rules ⟨fl, hk, k⟩ l = ⟨fl ++ [l], hk, k⟩ := by
        simp [filterStep, hfh]
      have key := ih (fl ++ [l]) hk k hhead
      rw [hstep]
      have e1 : countPlus (fl ++ [l]) = countPlus fl := by
        rw [countPlus_append, countPlus_cons, fileHeader_not_plusBody hfh]
        simp [countPlus]
      rw [e1] at key
      have e3 : countDrop rules (!hk.isEmpty) (l :: rest) =
          countDrop rules (!hk.isEmpty) rest := by
        simp [countDrop, hfh]
      have e4 : countPlus (l :: rest) = countPlus rest := by
        rw [countPlus_cons, fileHeader_not_plusBody hfh]
        simp
      rw [e3, e4]
      omega
    | false =>
      cases hat : strStartsWith l "@@" with
      | true =>
        have hstep : filterStep rules ⟨fl, hk, k⟩ l =
            ⟨fl ++ finalizeHunk hk k, [l], 0⟩ := by
          simp [filterStep, hfh, hat]
        have key := ih (fl ++ finalizeHunk hk k) [l] 0
          (by intro x hx; simp only [List.head?] at hx;
              rw [Option.mem_def, Option.some.injEq] at hx; rw [← hx]; exact hat)
        rw [hstep]
        have e1 : countPlus (fl ++ finalizeHunk hk k) = countPlus fl + countPlus hk := by
          rw [countPlus_append, countPlus_finalize hk k hhead]
        rw [e1] at key
        have e2 : countPlus ([l] : List String) = 0 := by
          rw [countPlus_cons, at_not_plusBody hat]
          simp [countPlus]
        rw [e2] at key
        have e3 : countDrop rules (!hk.isEmpty) (l :: rest) = countDrop rules true rest := by
          simp [countDrop, hfh, hat]
        have e4 : countPlus (l :: rest) = countPlus rest := by
          rw [countPlus_cons, at_not_plusBody hat]
          simp
        rw [e3, e4]
        simp only [List.isEmpty_cons, Bool.not_false] at key
        omega
      | false =>
        cases hk with
        | nil =>
          have hstep : filterStep rules ⟨fl, [], k⟩ l = ⟨fl, [], k⟩ := by
            simp [filterStep, hfh, hat, List.isEmpty]
          have key := ih fl [] k hhead
          rw [hstep]
          have e3 : countDrop rules (!([] : List String).isEmpty) (l :: rest) =
              (if strStartsWith l "+" then 1 else 0) +
                countDrop rules (!([] : List String).isEmpty) rest := by
            simp [countDrop, hfh, hat, List.isEmpty]
          have e4 : countPlus (l :: rest) =
              (if strStartsWith l "+" then 1 else 0) + countPlus rest := by
            rw [countPlus_cons]
            cases hp : strStartsWith l "+"
            · rw [plusBody_false_of_not_plus hp]
            · rw [plusBody_of_plus hfh hp]
          rw [e3, e4]
          omega
        | cons a t =>
          have hkemp : (a :: t).isEmpty = false := rfl
          have hhead' : ∀ h ∈ ((a :: t) ++ [l]).head?, strStartsWith h "@@" = true := by
            intro x hx
            simp only [List.cons_append, List.head?] at hx
            rw [Option.mem_def, Option.some.injEq] at hx
            rw [← hx]
            exact hhead a (by simp)
          cases hp : strStartsWith l "+" with
          | true =>
            cases hm : matchesAny rules (strTrim (strTail l)) with
            | true =>
              have hstep : filterStep rules ⟨fl, a :: t, k⟩ l = ⟨fl, a :: t, k + 1⟩ := by
                simp [filterStep, hfh, hat, hkemp, hp, hm]
              have key := ih fl (a :: t) (k + 1) hhead
              rw [hstep]
              have e3 : countDrop rules (!(a :: t).isEmpty) (l :: rest) =
                  1 + countDrop rules (!(a :: t).isEmpty) rest := by
                simp [countDrop, hfh, hat, hkemp, hp, hm]
              have e4 : countPlus (l :: rest) = 1 + countPlus rest := by
                rw [countPlus_cons, plusBody_of_plus hfh hp]
                simp
              rw [e3, e4]
              omega
            | false =>
              have hstep : filterStep rules ⟨fl, a :: t, k⟩ l =
                  ⟨fl, (a :: t) ++ [l], k⟩ := by
                simp [filterStep, hfh, hat, hkemp, hp, hm]
              have key := ih fl ((a :: t) ++ [l]) k hhead'
              rw [hstep]
              have e1 : countPlus ((a :: t) ++ [l]) =
                  countPlus (a :: t) + 1 := by
                rw [countPlus_append]
                have e0 : countPlus [l] = 1 := by
                  rw [countPlus_cons, plusBody_of_plus hfh hp]
                  simp [countPlus]
                rw [e0]
              rw [e1] at key
              have e3 : countDrop rules (!(a :: t).isEmpty) (l :: rest) =
                  countDrop rules (!((a :: t) ++ [l]).isEmpty) rest := by
                simp [countDrop, hfh, hat, hkemp, hp, hm, List.isEmpty]
              have e4 : countPlus (l :: rest) = 1 + countPlus rest := by
                rw [countPlus_cons, plusBody_of_plus hfh hp]
                simp
              rw [e3, e4]
              simp only [List.cons_append, List.isEmpty_cons, Bool.not_false] at key ⊢
              omega
          | false =>
            have hstep : filterStep rules ⟨fl, a :: t, k⟩ l =
                ⟨fl, (a :: t) ++ [l], k⟩ := by
              simp [filterStep, hfh, hat, hkemp, hp]
            have key := ih fl ((a :: t) ++ [l]) k hhead'
            rw [hstep]
            have e1 : countPlus ((a :: t) ++ [l]) = countPlus (a :: t) := by
              rw [countPlus_append]
              have e0 : countPlus [l] = 0 := by
                rw [countPlus_cons, plusBody_false_of_not_plus hp]
                simp [countPlus]
              rw [e0]
              simp
            rw [e1] at key
            have e3 : countDrop rules (!(a :: t).isEmpty) (l :: rest) =
                countDrop rules (!((a :: t) ++ [l]).isEmpty) rest := by
              simp [countDrop, hfh, hat, hkemp, hp, List.isEmpty]
            have e4 : countPlus (l :: rest) = countPlus rest := by
              rw [countPlus_cons, plusBody_false_of_not_plus hp]
              simp
            rw [e3, e4]
            simp only [List.cons_append, List.isEmpty_cons, Bool.not_false] at key ⊢
            omega

/-- Claim C4 (amended): for every rule set and input, the number of
added body lines (lines beginning with `+` other than `+++ ` file
headers) in the Patch Filter's output is at most the number in the
input, with equality exactly when no added body line is dropped — that
is, `countDrop` is zero: every added body line occurs after a hunk
header and matches no rule.  (As stated, with "equality iff no added
line matches a rule", the claim is false: an added line before any hunk
header is dropped even though it matches no rule — see the
counterexample.) -/
theorem filter_plus_count_monotone (rules : List (String → Bool)) (lines : List String) :
    countPlus (createFilteredPatchLines rules lines) ≤ countPlus lines ∧
      (countPlus (createFilteredPatchLines rules lines) = countPlus lines ↔
        countDrop rules false lines = 0) := by
  have key := countPlus_filter_aux rules lines [] [] 0 (by simp)
  unfold createFilteredPatchLines
  have e0 : countPlus ([] : List String) = 0 := rfl
  rw [e0] at key
  simp only [List.isEmpty_nil, Bool.not_true] at key
  omega

/-- Counterexample for C4 as stated: the single added line `+x` with no
hunk header and the empty rule set (so no added line matches any rule)
is dropped, so the `+`-line counts differ although nothing matched. -/
theorem filter_plus_count_monotone_cex :
    createFilteredPatchLines [] ["+x"] = [] ∧
      countPlus ["+x"] = 1 ∧
      countPlus (createFilteredPatchLines [] ["+x"]) = 0 := by
  exact ⟨by decide, by decide, by decide⟩

/-! ### Claim about line numbering in parsed hunks -/

/-- How much the running line-number counter advances after emitting an
entry: Added and Context entries occupy a line of the resulting file,
Removed entries do not. -/
def entryStep : EntryKind → Nat
  | .removed => 0
  | .added => 1
  | .context => 1

/-- The relation between consecutive entries of a hunk imposed by the
counter discipline. -/
def entrySucc (e1 e2 : DiffEntry) : Prop :=
  e2.lineNumber = e1.lineNumber + entryStep e1.kind

/-- The counter seed of a hunk: the `newStart` parsed from its header,
0 if the header does not match the structurer's pattern. -/
def hunkStart (h : Hunk) : Nat :=
  (searchStruct h.header.toList).getD 0

/-- A hunk whose entries obey the counter discipline: consecutive
entries are related by `entrySucc` and the first entry carries the
seed. -/
def lawfulHunk (h : Hunk) : Prop :=
  List.Chain' entrySucc h.lines ∧ ∀ e ∈ h.lines.head?, e.lineNumber = hunkStart h

/-- The running counter value agrees with the accumulated entries. -/
def counterSync (h : Hunk) (n : Nat) : Prop :=
  (h.lines.getLast? = none → n = hunkStart h) ∧
    ∀ e, h.lines.getLast? = some e → n = e.lineNumber + entryStep e.kind

/-- Loop invariant of `parseDiff`. -/
def parseInv (st : ParseState) : Prop :=
  (∀ h ∈ st.hunks, lawfulHunk h) ∧
    ∀ h, st.current = some h → lawfulHunk h ∧ counterSync h st.lineNumber

lemma lawful_append (h : Hunk) (n : Nat) (k : EntryKind) (c : String)
    (hl : lawfulHunk h) (hs : counterSync h n) :
    lawfulHunk ⟨h.header, h.lines ++ [⟨k, c, n⟩]⟩ ∧
      counterSync ⟨h.header, h.lines ++ [⟨k, c, n⟩]⟩ (n + entryStep k) := by
  refine ⟨⟨?_, ?_⟩, ?_, ?_⟩
  · refine List.Chain'.append hl.1 (List.chain'_singleton _) ?_
    intro x hx y hy
    simp only [List.head?_cons, Option.mem_def, Option.some.injEq] at hy
    rw [Option.mem_def] at hx
    have := hs.2 x hx
    unfold entrySucc
    rw [← hy]
    exact this ▸ rfl
  · intro e he
    cases hln : h.lines with
    | nil =>
      rw [hln] at he
      simp only [List.nil_append, List.head?_cons, Option.mem_def,
        Option.some.injEq] at he
      have : n = hunkStart h := hs.1 (by rw [hln]; rfl)
      rw [← he]
      exact this
    | cons a t =>
      rw [hln] at he
      simp only [List.cons_append, List.head?_cons, Option.mem_def,
        Option.some.injEq] at he
      rw [← he]
      exact hl.2 a (by rw [hln]; rfl)
  · intro hnone
    rw [List.getLast?_concat] at hnone
    exact Option.noConfusion hnone
  · intro e he
    rw [List.getLast?_concat, Option.some.injEq] at he
    rw [← he]

lemma parseStep_inv (st : ParseState) (line : String) (h : parseInv st) :
    parseInv (parseStep st line) := by
  unfold parseStep
  by_cases h1 : (strStartsWith line "diff --git" || strStartsWith line "index " ||
      strStartsWith line "new file" || strStartsWith line "deleted file") = true
  · rw [if_pos h1]
    exact h
  · rw [if_neg h1]
    by_cases h2 : strStartsWith line "@@" = true
    · rw [if_pos h2]
      constructor
      · intro x hx
        simp only [List.mem_append] at hx
        rcases hx with hx | hx
        · exact h.1 x hx
        · cases hc : st.current with
          | none =>
            rw [hc] at hx
            simp at hx
          | some hcur =>
            rw [hc] at hx
            simp only [List.mem_singleton] at hx
            rw [hx]
            exact (h.2 hcur hc).1
      · intro hh hhc
        simp only [Option.some.injEq] at hhc
        rw [← hhc]
        refine ⟨⟨List.chain'_nil, ?_⟩, ?_, ?_⟩
        · intro e he
          simp at he
        · intro _
          rfl
        · intro e he
          simp at he
    · rw [if_neg h2]
      cases hc : st.current with
      | none =>
        simp only [hc]
        exact h
      | some hcur =>
        simp only [hc]
        obtain ⟨hlaw, hsync⟩ := h.2 hcur hc
        by_cases hp : strStartsWith line "+" = true
        · rw [if_pos hp]
          have ha := lawful_append hcur st.lineNumber .added line hlaw hsync
          refine ⟨fun x hx => h.1 x hx, ?_⟩
          intro hh hhc
          simp only [Option.some.injEq] at hhc
          rw [← hhc]
          exact ⟨ha.1, ha.2⟩
        · rw [if_neg hp]
          by_cases hmn : strStartsWith line "-" = true
          · rw [if_pos hmn]
            have ha := lawful_append hcur st.lineNumber .removed line hlaw hsync
            refine ⟨fun x hx => h.1 x hx, ?_⟩
            intro hh hhc
            simp only [Option.some.injEq] at hhc
            rw [← hhc]
            exact ⟨ha.1, ha.2⟩
          · rw [if_neg hmn]
            by_cases hbs : strStartsWith line "\\" = true
            · rw [if_pos hbs]
              exact h
            · rw [if_neg hbs]
              have ha := lawful_append hcur st.lineNumber .context line hlaw hsync
              refine ⟨fun x hx => h.1 x hx, ?_⟩
              intro hh hhc
              simp only [Option.some.injEq] at hhc
              rw [← hhc]
              exact ⟨ha.1, ha.2⟩

lemma parseFold_inv : ∀ (lines : List String) (st : ParseState),
    parseInv st → parseInv (lines.foldl parseStep st) := by
  intro lines
  induction lines with
  | nil => intro st h; exact h
  | cons l rest ih =>
    intro st h
    rw [List.foldl_cons]
    exact ih (parseStep st l) (parseStep_inv st l h)

lemma parseFinish_lawful (st : ParseState) (h : parseInv st) :
    ∀ hk ∈ parseFinish st, lawfulHunk hk := by
  intro hk hmem
  unfold parseFinish at hmem
  simp only [List.mem_append] at hmem
  rcases hmem with hm | hm
  · exact h.1 hk hm
  · cases hc : st.current with
    | none =>
      rw [hc] at hm
      simp at hm
    | some hcur =>
      simp only [hc] at hm
      cases he : hcur.lines.isEmpty with
      | true =>
        rw [he] at hm
        simp at hm
      | false =>
        rw [he] at hm
        simp at hm
        rw [hm]
        exact (h.2 hcur hc).1

/-- Claim C5: in every hunk produced by the Diff Structurer, the first
entry's `lineNumber` equals the header's parsed `newStart` (the counter
seed), and each entry's `lineNumber` equals the previous entry's
`lineNumber` plus 1 when the previous entry is Added or Context and
plus 0 when it is Removed — hence consecutive Added/Context entries
have strictly increasing `lineNumber` and a Removed entry carries the
same `lineNumber` as the entry immediately following it. -/
theorem parseDiff_lineNumber_law (diff fp : String) (ty : FileChangeType) (h : Hunk)
    (hmem : h ∈ (parseDiff diff fp ty).hunks) :
    (∀ s, searchStruct h.header.toList = some s →
      ∀ e ∈ h.lines.head?, e.lineNumber = s) ∧
    ∀ (i : Nat) (hi : i < h.lines.length - 1),
      (h.lines.get ⟨i + 1, by omega⟩).lineNumber =
        (h.lines.get ⟨i, by omega⟩).lineNumber +
          entryStep (h.lines.get ⟨i, by omega⟩).kind := by
  have hlaw : lawfulHunk h := by
    unfold parseDiff at hmem
    by_cases hb : (strContains diff "Binary files" ||
        strContains diff "GIT binary patch") = true
    · rw [if_pos hb] at hmem
      simp at hmem
    · rw [if_neg hb] at hmem
      exact parseFinish_lawful _
        (parseFold_inv _ _
          ⟨fun x hx => absurd hx (List.not_mem_nil x),
            fun x hx => Option.noConfusion hx⟩) h hmem
  constructor
  · intro s hs e he
    have h1 := hlaw.2 e he
    unfold hunkStart at h1
    rw [hs] at h1
    exact h1
  · intro i hi
    exact List.chain'_iff_get.mp hlaw.1 i hi

/-- Concrete diff for the C5 witness. -/
def lineLawDiff : String := "@@ -3,2 +7,3 @@\n ctx\n-gone\n+new1\n+new2"

/-- The hunk `parseDiff` produces for `lineLawDiff`. -/
def lineLawHunk : Hunk :=
  ⟨"@@ -3,2 +7,3 @@",
    [⟨EntryKind.context, " ctx", 7⟩, ⟨EntryKind.removed, "-gone", 8⟩,
      ⟨EntryKind.added, "+new1", 8⟩, ⟨EntryKind.added, "+new2", 9⟩]⟩

/-- Witness for C5: the Removed entry at index 1 carries the same
`lineNumber` as the Added entry that follows it. -/
theorem parseDiff_lineNumber_law_witness :
    lineLawHunk ∈ (parseDiff lineLawDiff "f" FileChangeType.modified).hunks ∧
    (lineLawHunk.lines.get ⟨2, by decide⟩).lineNumber =
      (lineLawHunk.lines.get ⟨1, by decide⟩).lineNumber +
        entryStep (lineLawHunk.lines.get ⟨1, by decide⟩).kind := by
  have hm : lineLawHunk ∈ (parseDiff lineLawDiff "f" FileChangeType.modified).hunks := by
    decide
  exact ⟨hm,
    (parseDiff_lineNumber_law lineLawDiff "f" FileChangeType.modified lineLawHunk hm).2
      1 (by decide)⟩

end GitSmart
